import Mathlib

/-!
Shallow embedding of the ranking backend (src/backend/src/api/apiManager.js and
src/backend/src/api/cacheManager.js together with the express handlers), and
proofs of the specified properties.

The JS arrays backing the heaps are modelled as Lean lists; out-of-range array
reads, which never occur on the executed paths, are modelled with List.getD and
a default element.  Network fetches are modelled as pure functions packaged in
the Upstream structure, where a value of none stands for a failed (throwing)
request.  The two while loops of the source (the drain loop of getTopUsers and
the tie-extraction loop of getPopularPosts) are written with an explicit fuel
argument instantiated with the heap size; the theorems below show this fuel is
enough, so the embedding agrees with the unbounded loops of the source.
-/

namespace Backend

/-- User record assembled in getTopUsers / updateUsersCache:
an id, a display name and the fetched post count. -/
structure User where
  id : String
  name : String
  postCount : Nat
  deriving DecidableEq, Inhabited

/-- Raw post returned by the upstream users/id/posts route; only the id is
inspected by the ranking code, the rest is carried opaquely as content. -/
structure Post where
  id : Nat
  content : String
  deriving DecidableEq, Inhabited

/-- Post tagged with the owning username, as built by fetchAllPosts. -/
structure UserPost where
  id : Nat
  content : String
  username : String
  deriving DecidableEq, Inhabited

/-- Post with its fetched comment count, as built in getPopularPosts and
updatePostsCache before insertion into the comment heap. -/
structure CommentedPost where
  id : Nat
  content : String
  username : String
  commentCount : Nat
  deriving DecidableEq, Inhabited

/-! ### MinHeap (apiManager.js, class MinHeap)

The heap is the JS array this.heap; keys are the postCount field. -/

namespace MinHeap

/-- The JS MinHeap.swap: exchange two positions of the backing array. -/
def swap (h : List User) (i j : Nat) : List User :=
  (h.set i (h.getD j default)).set j (h.getD i default)

/-- Loop of the JS MinHeap.heapifyUp: bubble the element at index i towards
the root while its parent has a strictly larger postCount.  The fuel
argument bounds the number of iterations; since the index strictly
decreases on every pass, fuel i is always enough. -/
def heapifyUpAux : Nat → List User → Nat → List User
  | 0, h, _ => h
  | fuel + 1, h, i =>
    if 0 < i ∧ (h.getD ((i - 1) / 2) default).postCount > (h.getD i default).postCount then
      heapifyUpAux fuel (swap h ((i - 1) / 2) i) ((i - 1) / 2)
    else h

/-- The JS MinHeap.heapifyUp. -/
def heapifyUp (h : List User) (i : Nat) : List User := heapifyUpAux i h i

/-- The JS MinHeap.insert: push at the end, then heapifyUp from the last index. -/
def insert (h : List User) (u : User) : List User :=
  heapifyUp (h ++ [u]) h.length

/-- The variable called smallest in the JS MinHeap.heapifyDown after the
left-child comparison. -/
def smallestIdx1 (h : List User) (i : Nat) : Nat :=
  if 2 * i + 1 < h.length ∧
      (h.getD (2 * i + 1) default).postCount < (h.getD i default).postCount
  then 2 * i + 1 else i

/-- The variable called smallest in the JS MinHeap.heapifyDown after both
child comparisons. -/
def smallestIdx (h : List User) (i : Nat) : Nat :=
  if 2 * i + 2 < h.length ∧
      (h.getD (2 * i + 2) default).postCount < (h.getD (smallestIdx1 h i) default).postCount
  then 2 * i + 2 else smallestIdx1 h i

/-- Loop of the JS MinHeap.heapifyDown: sink the element at index i while a
child has a strictly smaller postCount.  The fuel argument bounds the number
of iterations; the index strictly increases and stays below the length on
every pass, so fuel equal to the heap size is always enough. -/
def heapifyDownAux : Nat → List User → Nat → List User
  | 0, h, _ => h
  | fuel + 1, h, i =>
    if smallestIdx h i = i then h
    else heapifyDownAux fuel (swap h i (smallestIdx h i)) (smallestIdx h i)

/-- The JS MinHeap.heapifyDown. -/
def heapifyDown (h : List User) (i : Nat) : List User := heapifyDownAux h.length h i

/-- The JS MinHeap.extractMin: null on an empty heap; otherwise remove the
root, move the popped last element to the root and heapifyDown. -/
def extractMin (h : List User) : Option User × List User :=
  if h.length = 0 then (none, h)
  else
    let m := h.getD 0 default
    let last := h.getD (h.length - 1) default
    let h1 := h.dropLast
    if 0 < h1.length then (some m, heapifyDown (h1.set 0 last) 0)
    else (some m, h1)

/-- Extraction loop of getTopUsers / updateUsersCache: while the heap is
nonempty, extract the minimum and prepend it (JS unshift).  The fuel
argument bounds the iteration count and is instantiated with the heap size. -/
def drainAux : Nat → List User → List User
  | 0, _ => []
  | fuel + 1, h =>
    if h.length = 0 then []
    else drainAux fuel (extractMin h).2 ++ [(extractMin h).1.getD default]

/-- Full extraction of the heap into a list, last-extracted first. -/
def drain (h : List User) : List User := drainAux h.length h

end MinHeap

/-! ### MaxHeap (apiManager.js, class MaxHeap)

Parameterised by the key function passed to the JS constructor. -/

namespace MaxHeap

variable {α : Type} [Inhabited α]

/-- The JS MaxHeap.swap. -/
def swap (h : List α) (i j : Nat) : List α :=
  (h.set i (h.getD j default)).set j (h.getD i default)

/-- The JS MaxHeap.peek: the root, or null on an empty heap. -/
def peek (h : List α) : Option α :=
  if 0 < h.length then some (h.getD 0 default) else none

/-- Loop of the JS MaxHeap.heapifyUp: bubble up while the parent key is
smaller; fuel as in the MinHeap. -/
def heapifyUpAux (key : α → Nat) : Nat → List α → Nat → List α
  | 0, h, _ => h
  | fuel + 1, h, i =>
    if 0 < i ∧ key (h.getD ((i - 1) / 2) default) < key (h.getD i default) then
      heapifyUpAux key fuel (swap h ((i - 1) / 2) i) ((i - 1) / 2)
    else h

/-- The JS MaxHeap.heapifyUp. -/
def heapifyUp (key : α → Nat) (h : List α) (i : Nat) : List α := heapifyUpAux key i h i

/-- The JS MaxHeap.insert. -/
def insert (key : α → Nat) (h : List α) (x : α) : List α :=
  heapifyUp key (h ++ [x]) h.length

/-- The variable called largest in the JS MaxHeap.heapifyDown after the
left-child comparison. -/
def largestIdx1 (key : α → Nat) (h : List α) (i : Nat) : Nat :=
  if 2 * i + 1 < h.length ∧ key (h.getD i default) < key (h.getD (2 * i + 1) default)
  then 2 * i + 1 else i

/-- The variable called largest in the JS MaxHeap.heapifyDown after both
child comparisons. -/
def largestIdx (key : α → Nat) (h : List α) (i : Nat) : Nat :=
  if 2 * i + 2 < h.length ∧
      key (h.getD (largestIdx1 key h i) default) < key (h.getD (2 * i + 2) default)
  then 2 * i + 2 else largestIdx1 key h i

/-- Loop of the JS MaxHeap.heapifyDown; fuel as in the MinHeap. -/
def heapifyDownAux (key : α → Nat) : Nat → List α → Nat → List α
  | 0, h, _ => h
  | fuel + 1, h, i =>
    if largestIdx key h i = i then h
    else heapifyDownAux key fuel (swap h i (largestIdx key h i)) (largestIdx key h i)

/-- The JS MaxHeap.heapifyDown. -/
def heapifyDown (key : α → Nat) (h : List α) (i : Nat) : List α :=
  heapifyDownAux key h.length h i

/-- The JS MaxHeap.extractMax. -/
def extractMax (key : α → Nat) (h : List α) : Option α × List α :=
  if h.length = 0 then (none, h)
  else
    let m := h.getD 0 default
    let last := h.getD (h.length - 1) default
    let h1 := h.dropLast
    if 0 < h1.length then (some m, heapifyDown key (h1.set 0 last) 0)
    else (some m, h1)

/-- Fixed-count extraction loop of getLatestPosts / updatePostsCache:
extract the maximum n times, collecting results in extraction order. -/
def extractList (key : α → Nat) : Nat → List α → List α
  | 0, _ => []
  | n + 1, h =>
    (extractMax key h).1.getD default :: extractList key n (extractMax key h).2

end MaxHeap

/-! ### Aggregation layer (apiManager.js, apiService) -/

/-- Upstream data source as seen through the authorized HTTP client.
A value of none models a request whose promise rejects; fields map to
GET /users, GET /users/id/posts and GET /posts/id/comments. -/
structure Upstream where
  users : Option (List (String × String))
  posts : String → Option (List Post)
  comments : Nat → Option (List String)

/-- The JS fetchUserPosts: the fetched list, or the empty array when the
request fails (the catch branch). -/
def fetchUserPosts (up : Upstream) (userId : String) : List Post :=
  (up.posts userId).getD []

/-- The JS fetchPostComments: the fetched list, or the empty array on error. -/
def fetchPostComments (up : Upstream) (postId : Nat) : List String :=
  (up.comments postId).getD []

/-- The per-user loop of getTopUsers / updateUsersCache building
userWithPosts: each listed user paired with its fetched post count. -/
def userWithPosts (up : Upstream) (users : List (String × String)) : List User :=
  users.map fun idname =>
    { id := idname.1, name := idname.2, postCount := (fetchUserPosts up idname.1).length }

/-- One iteration of the bounded selection loop of getTopUsers /
updateUsersCache: insert the user into the min-heap and extract the minimum
when the size exceeds 5. -/
def topStep (heap : List User) (user : User) : List User :=
  let h1 := MinHeap.insert heap user
  if 5 < h1.length then (MinHeap.extractMin h1).2 else h1

/-- The bounded top-5 selection loop of getTopUsers / updateUsersCache. -/
def topSelect (users : List User) : List User :=
  users.foldl topStep []

/-- Cache-miss computation of getTopUsers for a successfully fetched user
listing: build userWithPosts, run the bounded selection, drain descending. -/
def getTopUsersList (up : Upstream) (us : List (String × String)) : List User :=
  MinHeap.drain (topSelect (userWithPosts up us))

/-- The JS fetchAllPosts: every listed user's posts tagged with the username,
concatenated in listing order; a users-listing failure is caught and yields
the empty list. -/
def fetchAllPosts (up : Upstream) : List UserPost :=
  match up.users with
  | none => []
  | some us =>
      us.foldl
        (fun allPosts idname =>
          allPosts ++ (fetchUserPosts up idname.1).map
            (fun p => { id := p.id, content := p.content, username := idname.2 }))
        []

/-- Latest-posts computation shared by getLatestPosts and updatePostsCache:
insert all posts into a max-heap keyed by id and extract min(5, size) maxima. -/
def latestFromPosts (allPosts : List UserPost) : List UserPost :=
  let maxHeap := allPosts.foldl (fun h p => MaxHeap.insert UserPost.id h p) []
  MaxHeap.extractList UserPost.id (min 5 maxHeap.length) maxHeap

/-- Cache-miss computation of getLatestPosts. -/
def getLatestPosts (up : Upstream) : List UserPost :=
  latestFromPosts (fetchAllPosts up)

/-- Attach the fetched comment count to a post, as done before inserting
into the comment heap. -/
def withComments (up : Upstream) (p : UserPost) : CommentedPost :=
  { id := p.id, content := p.content, username := p.username,
    commentCount := (fetchPostComments up p.id).length }

/-- The comment heap built by getPopularPosts / updatePostsCache. -/
def commentHeapOf (up : Upstream) (allPosts : List UserPost) : List CommentedPost :=
  allPosts.foldl (fun h p => MaxHeap.insert CommentedPost.commentCount h (withComments up p)) []

/-- Tie-complete extraction loop of getPopularPosts / updatePostsCache:
while the heap is nonempty and its root has commentCount equal to
maxComments, extract the maximum.  The fuel argument bounds the iteration
count and is instantiated with the heap size. -/
def tieExtract (maxComments : Nat) : Nat → List CommentedPost → List CommentedPost
  | 0, _ => []
  | fuel + 1, heap =>
    if 0 < heap.length ∧ ((MaxHeap.peek heap).getD default).commentCount = maxComments then
      (MaxHeap.extractMax CommentedPost.commentCount heap).1.getD default ::
        tieExtract maxComments fuel (MaxHeap.extractMax CommentedPost.commentCount heap).2
    else []

/-- Descending-id sort applied to the tied group (the JS sort with comparator
b.id - a.id; JS sort is stable, as is insertion sort). -/
def sortByIdDesc (l : List CommentedPost) : List CommentedPost :=
  List.insertionSort (fun a b => b.id ≤ a.id) l

/-- Popular-posts computation from a built comment heap: empty-heap guard,
then tie-complete extraction of the maximal comment count, then a
descending-id sort of the tied group. -/
def popularFromHeap (commentHeap : List CommentedPost) : List CommentedPost :=
  if commentHeap.length = 0 then []
  else
    let maxComments := ((MaxHeap.peek commentHeap).getD default).commentCount
    sortByIdDesc (tieExtract maxComments commentHeap.length commentHeap)

/-- Cache-miss computation of getPopularPosts. -/
def getPopularPosts (up : Upstream) : List CommentedPost :=
  popularFromHeap (commentHeapOf up (fetchAllPosts up))

/-! ### Refresh orchestration (apiManager.js caches and update jobs) -/

/-- The three NodeCache entries owned by apiManager.js: userCache topUsers,
latestPostsCache latestPosts, popularPostsCache popularPosts. -/
structure ApiCaches where
  topUsers : Option (List User)
  latestPosts : Option (List UserPost)
  popularPosts : Option (List CommentedPost)
  deriving DecidableEq, Inhabited

/-- The JS updatePostsCache as a state transformer on the api caches.
A users-listing failure is absorbed by fetchAllPosts, so allPosts is empty
and both post caches are overwritten with the empty list. -/
def updatePostsCache (up : Upstream) (c : ApiCaches) : ApiCaches :=
  let allPosts := fetchAllPosts up
  if allPosts.length = 0 then
    { c with latestPosts := some [], popularPosts := some [] }
  else
    let c1 := { c with latestPosts := some (latestFromPosts allPosts) }
    let commentHeap := commentHeapOf up allPosts
    if 0 < commentHeap.length then
      { c1 with popularPosts := some (popularFromHeap commentHeap) }
    else c1

/-- The JS updateUsersCache as a state transformer on the api caches.
A users-listing failure hits the catch branch, which overwrites the
topUsers entry with the empty list; an empty listing does the same. -/
def updateUsersCache (up : Upstream) (c : ApiCaches) : ApiCaches :=
  match up.users with
  | none => { c with topUsers := some [] }
  | some us =>
      let uwp := userWithPosts up us
      if uwp.length = 0 then { c with topUsers := some [] }
      else { c with topUsers := some (MinHeap.drain (topSelect uwp)) }

/-! ### HTTP read path (index.js handlers over cacheManager.js caches) -/

/-- The two cacheManager.js postsCache entries read by GET /posts. -/
structure SrvCaches where
  latest_posts : Option (List UserPost)
  popular_posts : Option (List CommentedPost)
  deriving DecidableEq, Inhabited

/-- Cache operations performed by a request against cacheManager.js. -/
inductive CacheOp where
  | readLatest
  | writeLatest
  | readPopular
  | writePopular
  deriving DecidableEq

/-- Response of the GET /posts handler. -/
inductive PostsResult where
  | latestBody (posts : List UserPost)
  | popularBody (posts : List CommentedPost)
  | badRequest
  deriving DecidableEq

/-- HTTP status code of a GET /posts response. -/
def PostsResult.status : PostsResult → Nat
  | .latestBody _ => 200
  | .popularBody _ => 200
  | .badRequest => 400

/-- The GET /posts handler of index.js.  The JS default req.query.type or
latest applies when the parameter is absent or an empty string (the only
falsy string).  Returns the response, the updated server cache and the
list of cache operations performed. -/
def postsHandler (typeParam : Option String) (up : Upstream) (st : SrvCaches) :
    PostsResult × SrvCaches × List CacheOp :=
  let t := match typeParam with
    | none => "latest"
    | some s => if s = "" then "latest" else s
  if t = "latest" then
    match st.latest_posts with
    | some cached => (.latestBody cached, st, [.readLatest])
    | none =>
        let posts := getLatestPosts up
        (.latestBody posts, { st with latest_posts := some posts },
          [.readLatest, .writeLatest])
  else if t = "popular" then
    match st.popular_posts with
    | some cached => (.popularBody cached, st, [.readPopular])
    | none =>
        let posts := getPopularPosts up
        (.popularBody posts, { st with popular_posts := some posts },
          [.readPopular, .writePopular])
  else (.badRequest, st, [])

/-! ### Specification predicates -/

namespace MinHeap

/-- Key (postCount) stored at a position of the min-heap array. -/
def keyAt (h : List User) (i : Nat) : Nat := (h.getD i default).postCount

/-- Binary min-heap invariant: every non-root position has a key at least
that of its parent. -/
def HeapProp (h : List User) : Prop :=
  ∀ j, 0 < j → j < h.length → keyAt h ((j - 1) / 2) ≤ keyAt h j

/-- Loop invariant of heapifyUp at position i: every parent edge holds
except possibly the one into i, and the parent of i already bounds the
children of i. -/
def UpOK (h : List User) (i : Nat) : Prop :=
  (∀ j, 0 < j → j < h.length → j ≠ i → keyAt h ((j - 1) / 2) ≤ keyAt h j) ∧
  (∀ j, j < h.length → (j - 1) / 2 = i → 0 < i → keyAt h ((i - 1) / 2) ≤ keyAt h j)

/-- Loop invariant of heapifyDown at position i: every parent edge holds
except possibly those out of i, and the parent of i bounds the children
of i. -/
def DownOK (h : List User) (i : Nat) : Prop :=
  (∀ j, 0 < j → j < h.length → (j - 1) / 2 ≠ i → keyAt h ((j - 1) / 2) ≤ keyAt h j) ∧
  (∀ j, 0 < j → j < h.length → (j - 1) / 2 = i → 0 < i → keyAt h ((i - 1) / 2) ≤ keyAt h j)

end MinHeap

/-- Multiset of post counts of a user list. -/
def scoresOf (l : List User) : Multiset Nat := (l.map User.postCount : Multiset Nat)

/-- sel is a top-k selection of ms: a sub-multiset of maximal size up to k
whose members dominate everything left behind. -/
def IsTopK (k : Nat) (sel ms : Multiset Nat) : Prop :=
  sel ≤ ms ∧ Multiset.card sel = min k (Multiset.card ms) ∧
    ∀ a ∈ sel, ∀ b ∈ ms - sel, b ≤ a

/-- Brute-force specification side of the top-K claim: sort all post counts
descending and keep the first five. -/
def bruteTop5 (users : List User) : List Nat :=
  (List.insertionSort (fun a b : Nat => b ≤ a) (users.map User.postCount)).take 5

/-- Sorted by weakly decreasing postCount. -/
def SortedByCountDesc (l : List User) : Prop :=
  l.Sorted (fun a b => b.postCount ≤ a.postCount)

/-! ### List index and permutation groundwork -/

theorem getD_set_eq {α : Type} (l : List α) (i : Nat) (a d : α) (hi : i < l.length) :
    (l.set i a).getD i d = a := by
  simp [List.getD_eq_getElem?_getD, List.getElem?_set_self hi]

theorem getD_set_ne {α : Type} (l : List α) {i j : Nat} (a d : α) (hij : i ≠ j) :
    (l.set i a).getD j d = l.getD j d := by
  simp [List.getD_eq_getElem?_getD, List.getElem?_set_ne hij]

theorem getD_append_lt {α : Type} (l l2 : List α) (d : α) (j : Nat) (hj : j < l.length) :
    (l ++ l2).getD j d = l.getD j d := by
  simp [List.getD_eq_getElem?_getD, List.getElem?_append_left hj]

theorem getD_append_len {α : Type} (l : List α) (x d : α) :
    (l ++ [x]).getD l.length d = x := by
  simp [List.getD_eq_getElem?_getD, List.getElem?_append_right (Nat.le_refl l.length)]

theorem getD_eq_getElem {α : Type} (l : List α) (d : α) {j : Nat} (hj : j < l.length) :
    l.getD j d = l[j] := by
  simp [List.getD_eq_getElem?_getD, List.getElem?_eq_getElem hj]

theorem getD_mem {α : Type} (l : List α) (d : α) {j : Nat} (hj : j < l.length) :
    l.getD j d ∈ l := by
  rw [getD_eq_getElem l d hj]
  exact List.getElem_mem hj

theorem getD_set_cons_perm {α : Type} (d : α) :
    ∀ (t : List α) (k : Nat), k < t.length → ∀ a : α,
      (t.getD k d :: t.set k a).Perm (a :: t) := by
  intro t
  induction t with
  | nil => intro k hk; simp at hk
  | cons x t ih =>
    intro k hk a
    cases k with
    | zero => simpa using List.Perm.swap a x t
    | succ k =>
      simp only [List.getD_cons_succ, List.set_cons_succ]
      exact ((List.Perm.swap x (t.getD k d) (t.set k a)).trans
        ((ih k (by simpa using hk) a).cons x)).trans (List.Perm.swap a x t)

theorem MaxHeap.swapMax_length {α : Type} [Inhabited α] (h : List α) (i j : Nat) :
    (MaxHeap.swap h i j).length = h.length := by
  simp [MaxHeap.swap]

theorem MaxHeap.swapMax_perm {α : Type} [Inhabited α] :
    ∀ (l : List α) (i j : Nat), i < j → j < l.length → (MaxHeap.swap l i j).Perm l := by
  intro l
  induction l with
  | nil => intro i j hij hj; simp at hj
  | cons x t ih =>
    intro i j hij hj
    match i, j with
    | 0, k + 1 =>
      have hk : k < t.length := by simpa using hj
      simp only [MaxHeap.swap, List.getD_cons_succ, List.getD_cons_zero,
        List.set_cons_zero, List.set_cons_succ]
      exact getD_set_cons_perm default t k hk x
    | m + 1, k + 1 =>
      have hk : k < t.length := by simpa using hj
      simp only [MaxHeap.swap, List.getD_cons_succ, List.set_cons_succ]
      exact (ih m k (by omega) hk).cons x

theorem MinHeap.swap_length (h : List User) (i j : Nat) :
    (MinHeap.swap h i j).length = h.length := by
  simp [MinHeap.swap]

theorem MinHeap.swap_perm (l : List User) (i j : Nat) (hij : i < j) (hj : j < l.length) :
    (MinHeap.swap l i j).Perm l :=
  MaxHeap.swapMax_perm l i j hij hj

theorem MaxHeap.largestIdx_bounds {α : Type} [Inhabited α] (key : α → Nat) (h : List α)
    (i : Nat) (hne : MaxHeap.largestIdx key h i ≠ i) :
    i < MaxHeap.largestIdx key h i ∧ MaxHeap.largestIdx key h i < h.length := by
  unfold MaxHeap.largestIdx MaxHeap.largestIdx1 at hne ⊢
  split_ifs at hne ⊢ <;> omega

theorem MinHeap.smallestIdx_bounds (h : List User) (i : Nat)
    (hne : MinHeap.smallestIdx h i ≠ i) :
    i < MinHeap.smallestIdx h i ∧ MinHeap.smallestIdx h i < h.length := by
  unfold MinHeap.smallestIdx MinHeap.smallestIdx1 at hne ⊢
  split_ifs at hne ⊢ <;> omega

theorem MaxHeap.heapifyDownAuxMax_perm {α : Type} [Inhabited α] (key : α → Nat) :
    ∀ (fuel : Nat) (h : List α) (i : Nat), (MaxHeap.heapifyDownAux key fuel h i).Perm h := by
  intro fuel
  induction fuel with
  | zero => intro h i; exact List.Perm.refl h
  | succ n ih =>
    intro h i
    unfold MaxHeap.heapifyDownAux
    split_ifs with hne
    · exact List.Perm.refl h
    · have hb := MaxHeap.largestIdx_bounds key h i hne
      exact (ih _ _).trans (MaxHeap.swapMax_perm h i _ hb.1 hb.2)

theorem MaxHeap.heapifyDownMax_perm {α : Type} [Inhabited α] (key : α → Nat) (h : List α)
    (i : Nat) : (MaxHeap.heapifyDown key h i).Perm h :=
  MaxHeap.heapifyDownAuxMax_perm key h.length h i

theorem MinHeap.heapifyDownAux_perm :
    ∀ (fuel : Nat) (h : List User) (i : Nat), (MinHeap.heapifyDownAux fuel h i).Perm h := by
  intro fuel
  induction fuel with
  | zero => intro h i; exact List.Perm.refl h
  | succ n ih =>
    intro h i
    unfold MinHeap.heapifyDownAux
    split_ifs with hne
    · exact List.Perm.refl h
    · have hb := MinHeap.smallestIdx_bounds h i hne
      exact (ih _ _).trans (MinHeap.swap_perm h i _ hb.1 hb.2)

theorem MinHeap.heapifyDown_perm (h : List User) (i : Nat) :
    (MinHeap.heapifyDown h i).Perm h :=
  MinHeap.heapifyDownAux_perm h.length h i

theorem MinHeap.heapifyUpAux_length :
    ∀ (fuel : Nat) (h : List User) (i : Nat),
      (MinHeap.heapifyUpAux fuel h i).length = h.length := by
  intro fuel
  induction fuel with
  | zero => intro h i; rfl
  | succ n ih =>
    intro h i
    unfold MinHeap.heapifyUpAux
    split_ifs with hc
    · rw [ih, MinHeap.swap_length]
    · rfl

theorem MinHeap.heapifyUpAux_perm :
    ∀ (fuel : Nat) (h : List User) (i : Nat), i < h.length →
      (MinHeap.heapifyUpAux fuel h i).Perm h := by
  intro fuel
  induction fuel with
  | zero => intro h i _; exact List.Perm.refl h
  | succ n ih =>
    intro h i hi
    unfold MinHeap.heapifyUpAux
    split_ifs with hc
    · exact (ih _ _ (by rw [MinHeap.swap_length]; omega)).trans
        (MinHeap.swap_perm h ((i - 1) / 2) i (by omega) hi)
    · exact List.Perm.refl h

theorem MinHeap.insert_perm (h : List User) (u : User) :
    (MinHeap.insert h u).Perm (u :: h) := by
  unfold MinHeap.insert MinHeap.heapifyUp
  exact (MinHeap.heapifyUpAux_perm h.length (h ++ [u]) h.length (by simp)).trans
    (List.perm_append_singleton u h)

theorem MinHeap.insert_length (h : List User) (u : User) :
    (MinHeap.insert h u).length = h.length + 1 := by
  unfold MinHeap.insert MinHeap.heapifyUp
  rw [MinHeap.heapifyUpAux_length]
  simp

theorem getD_last {α : Type} (y : α) (t2 : List α) (d : α) :
    (y :: t2).getD t2.length d = (y :: t2).getLast (by simp) := by
  rw [getD_eq_getElem _ d (by simp), List.getLast_eq_getElem]
  simp

theorem last_cons_dropLast_perm {α : Type} (y : α) (t2 : List α) (d : α) :
    ((y :: t2).getD t2.length d :: (y :: t2).dropLast).Perm (y :: t2) := by
  rw [getD_last]
  have hd := List.dropLast_append_getLast (l := y :: t2) (by simp)
  have hp := List.perm_append_singleton ((y :: t2).getLast (by simp)) ((y :: t2).dropLast)
  rw [hd] at hp
  exact hp.symm

theorem MaxHeap.extractMax_nil {α : Type} [Inhabited α] (key : α → Nat) :
    MaxHeap.extractMax key ([] : List α) = (none, []) := rfl

theorem MaxHeap.extractMax_spec {α : Type} [Inhabited α] (key : α → Nat) :
    ∀ (h : List α), h ≠ [] →
      (MaxHeap.extractMax key h).1 = some (h.getD 0 default) ∧
      ((h.getD 0 default) :: (MaxHeap.extractMax key h).2).Perm h := by
  intro h hne
  match h with
  | [x] => exact ⟨by simp [MaxHeap.extractMax], by simp [MaxHeap.extractMax]⟩
  | x :: y :: t2 =>
    have e2 : (MaxHeap.extractMax key (x :: y :: t2)).2
        = MaxHeap.heapifyDown key (((y :: t2).getD t2.length default) :: (y :: t2).dropLast) 0 := by
      simp [MaxHeap.extractMax]
    refine ⟨by simp [MaxHeap.extractMax], ?_⟩
    rw [e2]
    simp only [List.getD_cons_zero]
    exact (((MaxHeap.heapifyDownMax_perm key _ 0).trans
      (last_cons_dropLast_perm y t2 default)).cons x)

theorem MinHeap.extractMin_nil : MinHeap.extractMin ([] : List User) = (none, []) := rfl

theorem MinHeap.extractMin_root_perm :
    ∀ (h : List User), h ≠ [] →
      (MinHeap.extractMin h).1 = some (h.getD 0 default) ∧
      ((h.getD 0 default) :: (MinHeap.extractMin h).2).Perm h := by
  intro h hne
  match h with
  | [x] => exact ⟨by simp [MinHeap.extractMin], by simp [MinHeap.extractMin]⟩
  | x :: y :: t2 =>
    have e2 : (MinHeap.extractMin (x :: y :: t2)).2
        = MinHeap.heapifyDown (((y :: t2).getD t2.length default) :: (y :: t2).dropLast) 0 := by
      simp [MinHeap.extractMin]
    refine ⟨by simp [MinHeap.extractMin], ?_⟩
    rw [e2]
    simp only [List.getD_cons_zero]
    exact (((MinHeap.heapifyDown_perm _ 0).trans
      (last_cons_dropLast_perm y t2 default)).cons x)

/-! ### Min-heap ordering invariants -/

theorem MinHeap.keyAt_swap_left (h : List User) {i j : Nat} (hi : i < h.length) (hij : i ≠ j) :
    MinHeap.keyAt (MinHeap.swap h i j) i = MinHeap.keyAt h j := by
  unfold MinHeap.keyAt MinHeap.swap
  rw [getD_set_ne _ _ _ (Ne.symm hij), getD_set_eq _ _ _ _ hi]

theorem MinHeap.keyAt_swap_right (h : List User) {i j : Nat} (hj : j < h.length) :
    MinHeap.keyAt (MinHeap.swap h i j) j = MinHeap.keyAt h i := by
  unfold MinHeap.keyAt MinHeap.swap
  rw [getD_set_eq _ _ _ _ (by rw [List.length_set]; exact hj)]

theorem MinHeap.keyAt_swap_other (h : List User) {i j k : Nat} (hki : k ≠ i) (hkj : k ≠ j) :
    MinHeap.keyAt (MinHeap.swap h i j) k = MinHeap.keyAt h k := by
  unfold MinHeap.keyAt MinHeap.swap
  rw [getD_set_ne _ _ _ (Ne.symm hkj), getD_set_ne _ _ _ (Ne.symm hki)]

theorem MinHeap.keyAt_append_lt (h : List User) (u : User) {j : Nat} (hj : j < h.length) :
    MinHeap.keyAt (h ++ [u]) j = MinHeap.keyAt h j := by
  unfold MinHeap.keyAt
  rw [getD_append_lt _ _ _ _ hj]

theorem MinHeap.upOK_append (h : List User) (u : User) (hp : MinHeap.HeapProp h) :
    MinHeap.UpOK (h ++ [u]) h.length := by
  constructor
  · intro j hj0 hjlen hne
    have hjl : j < h.length := by simp at hjlen; omega
    have hpar : (j - 1) / 2 < h.length := by omega
    rw [MinHeap.keyAt_append_lt h u hpar, MinHeap.keyAt_append_lt h u hjl]
    exact hp j hj0 hjl
  · intro j hjlen hpar hpos
    simp at hjlen
    omega

theorem MinHeap.upOK_swap (h : List User) (i : Nat) (hi : i < h.length)
    (hOK : MinHeap.UpOK h i) (h0 : 0 < i)
    (hgt : MinHeap.keyAt h i < MinHeap.keyAt h ((i - 1) / 2)) :
    MinHeap.UpOK (MinHeap.swap h ((i - 1) / 2) i) ((i - 1) / 2) := by
  obtain ⟨hA, hB⟩ := hOK
  set p := (i - 1) / 2 with hp
  have hpi : p < i := by omega
  have hplen : p < h.length := by omega
  have len_eq : (MinHeap.swap h p i).length = h.length := MinHeap.swap_length h p i
  have kp : MinHeap.keyAt (MinHeap.swap h p i) p = MinHeap.keyAt h i :=
    MinHeap.keyAt_swap_left h hplen (by omega)
  have ki : MinHeap.keyAt (MinHeap.swap h p i) i = MinHeap.keyAt h p :=
    MinHeap.keyAt_swap_right h hi
  have kother : ∀ k, k ≠ p → k ≠ i →
      MinHeap.keyAt (MinHeap.swap h p i) k = MinHeap.keyAt h k :=
    fun k hkp hki => MinHeap.keyAt_swap_other h hkp hki
  constructor
  · intro j hj0 hjlen hne
    rw [len_eq] at hjlen
    by_cases hji : j = i
    · subst hji
      have hpj : (j - 1) / 2 = p := hp.symm
      rw [hpj, kp, ki]
      omega
    · have hjp : j ≠ p := hne
      rcases eq_or_ne ((j - 1) / 2) p with hpar | hpar
      · rw [hpar, kp, kother j hjp hji]
        have step1 : MinHeap.keyAt h ((j - 1) / 2) ≤ MinHeap.keyAt h j :=
          hA j hj0 hjlen hji
        rw [hpar] at step1
        omega
      · rcases eq_or_ne ((j - 1) / 2) i with hpar2 | hpar2
        · rw [hpar2, ki, kother j hjp hji]
          exact hB j hjlen hpar2 h0
        · rw [kother _ hpar hpar2, kother j hjp hji]
          exact hA j hj0 hjlen hji
  · intro j hjlen hpar hppos
    rw [len_eq] at hjlen
    have hq : (p - 1) / 2 < p := by omega
    have hqp : (p - 1) / 2 ≠ p := by omega
    have hqi : (p - 1) / 2 ≠ i := by omega
    rw [kother _ hqp hqi]
    by_cases hji : j = i
    · subst hji
      rw [ki]
      exact hA p (by omega) hplen (by omega)
    · have hj0 : 0 < j := by omega
      have hjp : j ≠ p := by omega
      rw [kother j hjp hji]
      have s1 : MinHeap.keyAt h ((p - 1) / 2) ≤ MinHeap.keyAt h p :=
        hA p (by omega) hplen (by omega)
      have s2 : MinHeap.keyAt h ((j - 1) / 2) ≤ MinHeap.keyAt h j :=
        hA j hj0 hjlen hji
      rw [hpar] at s2
      omega

theorem MinHeap.upOK_done (h : List User) (i : Nat) (hOK : MinHeap.UpOK h i)
    (hstop : i = 0 ∨ MinHeap.keyAt h ((i - 1) / 2) ≤ MinHeap.keyAt h i) :
    MinHeap.HeapProp h := by
  intro j hj0 hjlen
  by_cases hji : j = i
  · subst hji
    rcases hstop with h0 | hle
    · omega
    · exact hle
  · exact hOK.1 j hj0 hjlen hji

theorem MinHeap.heapifyUpAux_heapProp :
    ∀ (fuel : Nat) (h : List User) (i : Nat), i ≤ fuel → i < h.length → MinHeap.UpOK h i →
      MinHeap.HeapProp (MinHeap.heapifyUpAux fuel h i) := by
  intro fuel
  induction fuel with
  | zero =>
    intro h i hfi hi hOK
    exact MinHeap.upOK_done h i hOK (Or.inl (by omega))
  | succ n ih =>
    intro h i hfi hi hOK
    unfold MinHeap.heapifyUpAux
    split_ifs with hc
    · exact ih _ ((i - 1) / 2) (by omega) (by rw [MinHeap.swap_length]; omega)
        (MinHeap.upOK_swap h i hi hOK hc.1 hc.2)
    · push_neg at hc
      rcases Nat.eq_zero_or_pos i with h0 | hpos
      · exact MinHeap.upOK_done h i hOK (Or.inl h0)
      · exact MinHeap.upOK_done h i hOK (Or.inr (hc hpos))

theorem MinHeap.insert_heapProp (h : List User) (u : User) (hp : MinHeap.HeapProp h) :
    MinHeap.HeapProp (MinHeap.insert h u) := by
  unfold MinHeap.insert MinHeap.heapifyUp
  exact MinHeap.heapifyUpAux_heapProp h.length (h ++ [u]) h.length (le_refl _) (by simp)
    (MinHeap.upOK_append h u hp)

theorem MinHeap.smallestIdx_spec (h : List User) (i : Nat)
    (hne : MinHeap.smallestIdx h i ≠ i) :
    (MinHeap.smallestIdx h i = 2 * i + 1 ∨ MinHeap.smallestIdx h i = 2 * i + 2) ∧
    MinHeap.keyAt h (MinHeap.smallestIdx h i) < MinHeap.keyAt h i ∧
    (∀ c, (c = 2 * i + 1 ∨ c = 2 * i + 2) → c < h.length →
      MinHeap.keyAt h (MinHeap.smallestIdx h i) ≤ MinHeap.keyAt h c) := by
  unfold MinHeap.smallestIdx MinHeap.smallestIdx1 at hne ⊢
  unfold MinHeap.keyAt
  split_ifs at hne ⊢ <;>
    refine ⟨by omega, by omega, ?_⟩ <;>
    (intro c hc hcl; rcases hc with rfl | rfl <;> omega)

theorem MinHeap.smallestIdx_stop (h : List User) (i : Nat)
    (heq : MinHeap.smallestIdx h i = i) :
    ∀ c, (c = 2 * i + 1 ∨ c = 2 * i + 2) → c < h.length →
      MinHeap.keyAt h i ≤ MinHeap.keyAt h c := by
  unfold MinHeap.smallestIdx MinHeap.smallestIdx1 at heq
  unfold MinHeap.keyAt
  intro c hc hcl
  split_ifs at heq <;> rcases hc with rfl | rfl <;> omega

theorem MinHeap.downOK_swap (h : List User) (i : Nat) (hOK : MinHeap.DownOK h i)
    (hne : MinHeap.smallestIdx h i ≠ i) :
    MinHeap.DownOK (MinHeap.swap h i (MinHeap.smallestIdx h i)) (MinHeap.smallestIdx h i) := by
  obtain ⟨hA, hB⟩ := hOK
  obtain ⟨his, hslen⟩ := MinHeap.smallestIdx_bounds h i hne
  obtain ⟨hchild, hlt, hmin⟩ := MinHeap.smallestIdx_spec h i hne
  set s := MinHeap.smallestIdx h i with hs
  have hilen : i < h.length := by omega
  have len_eq := MinHeap.swap_length h i s
  have ki : MinHeap.keyAt (MinHeap.swap h i s) i = MinHeap.keyAt h s :=
    MinHeap.keyAt_swap_left h hilen (by omega)
  have ks : MinHeap.keyAt (MinHeap.swap h i s) s = MinHeap.keyAt h i :=
    MinHeap.keyAt_swap_right h hslen
  have kother : ∀ k, k ≠ i → k ≠ s →
      MinHeap.keyAt (MinHeap.swap h i s) k = MinHeap.keyAt h k :=
    fun k h1 h2 => MinHeap.keyAt_swap_other h h1 h2
  have hpar_s : (s - 1) / 2 = i := by rcases hchild with hc | hc <;> omega
  constructor
  · intro j hj0 hjlen hpne
    rw [len_eq] at hjlen
    by_cases hjs : j = s
    · subst hjs
      rw [hpar_s, ki, ks]
      omega
    · by_cases hji : j = i
      · subst hji
        have hq : (j - 1) / 2 ≠ j := by omega
        have hqs : (j - 1) / 2 ≠ s := by omega
        rw [ki, kother _ hq hqs]
        exact hB s (by omega) hslen hpar_s hj0
      · rcases eq_or_ne ((j - 1) / 2) i with hpj | hpj
        · have hjc : j = 2 * i + 1 ∨ j = 2 * i + 2 := by omega
          rw [hpj, ki, kother j hji hjs]
          exact hmin j hjc hjlen
        · rw [kother _ hpj hpne, kother j hji hjs]
          exact hA j hj0 hjlen hpj
  · intro j hj0 hjlen hpj hspos
    rw [len_eq] at hjlen
    rw [hpar_s, ki]
    have hjgt : s < j := by omega
    have hjs : j ≠ s := by omega
    have hji : j ≠ i := by omega
    rw [kother j hji hjs]
    have hAj := hA j hj0 hjlen (by omega)
    rw [hpj] at hAj
    exact hAj

theorem MinHeap.downOK_stop (h : List User) (i : Nat) (hOK : MinHeap.DownOK h i)
    (heq : MinHeap.smallestIdx h i = i) : MinHeap.HeapProp h := by
  intro j hj0 hjlen
  rcases eq_or_ne ((j - 1) / 2) i with hpj | hpj
  · have hjc : j = 2 * i + 1 ∨ j = 2 * i + 2 := by omega
    rw [hpj]
    exact MinHeap.smallestIdx_stop h i heq j hjc hjlen
  · exact hOK.1 j hj0 hjlen hpj

theorem MinHeap.smallestIdx_out (h : List User) (i : Nat) (hi : h.length ≤ i) :
    MinHeap.smallestIdx h i = i := by
  unfold MinHeap.smallestIdx MinHeap.smallestIdx1
  split_ifs <;> omega

theorem MinHeap.heapifyDownAux_heapProp :
    ∀ (fuel : Nat) (h : List User) (i : Nat), h.length - i ≤ fuel → MinHeap.DownOK h i →
      MinHeap.HeapProp (MinHeap.heapifyDownAux fuel h i) := by
  intro fuel
  induction fuel with
  | zero =>
    intro h i hf hOK
    exact MinHeap.downOK_stop h i hOK (MinHeap.smallestIdx_out h i (by omega))
  | succ n ih =>
    intro h i hf hOK
    unfold MinHeap.heapifyDownAux
    split_ifs with hne
    · exact MinHeap.downOK_stop h i hOK hne
    · have hb := MinHeap.smallestIdx_bounds h i hne
      exact ih _ _ (by rw [MinHeap.swap_length]; omega) (MinHeap.downOK_swap h i hOK hne)

theorem MinHeap.heapifyDown_heapProp (h : List User) (i : Nat) (hOK : MinHeap.DownOK h i) :
    MinHeap.HeapProp (MinHeap.heapifyDown h i) :=
  MinHeap.heapifyDownAux_heapProp h.length h i (by omega) hOK

theorem MinHeap.heapProp_nil : MinHeap.HeapProp [] := by
  intro j hj0 hj
  simp at hj

theorem MinHeap.downOK_extract (h : List User) (hp : MinHeap.HeapProp h) (h2 : 2 ≤ h.length) :
    MinHeap.DownOK ((h.dropLast).set 0 (h.getD (h.length - 1) default)) 0 := by
  have key_eq : ∀ k, k ≠ 0 → k < h.length - 1 →
      MinHeap.keyAt ((h.dropLast).set 0 (h.getD (h.length - 1) default)) k
        = MinHeap.keyAt h k := by
    intro k hk0 hklen
    unfold MinHeap.keyAt
    rw [getD_set_ne _ _ _ (Ne.symm hk0)]
    congr 1
    rw [getD_eq_getElem _ _ (by simp; omega), getD_eq_getElem _ _ (by omega)]
    exact List.getElem_dropLast ..
  constructor
  · intro j hj0 hjlen hpne
    have hlen : ((h.dropLast).set 0 (h.getD (h.length - 1) default)).length = h.length - 1 := by
      simp
    rw [hlen] at hjlen
    rw [key_eq _ hpne (by omega), key_eq j (by omega) hjlen]
    exact hp j hj0 (by omega)
  · intro j hj0 hjlen hpj hpos
    omega

theorem MinHeap.root_min (h : List User) (hp : MinHeap.HeapProp h) :
    ∀ j, j < h.length → MinHeap.keyAt h 0 ≤ MinHeap.keyAt h j := by
  intro j
  induction j using Nat.strong_induction_on with
  | _ j ih =>
    intro hj
    rcases Nat.eq_zero_or_pos j with h0 | hpos
    · subst h0; exact Nat.le_refl _
    · exact le_trans (ih ((j - 1) / 2) (by omega) (by omega)) (hp j hpos hj)

theorem MinHeap.root_min_mem (h : List User) (hp : MinHeap.HeapProp h) :
    ∀ u ∈ h, (h.getD 0 default).postCount ≤ u.postCount := by
  intro u hu
  obtain ⟨j, hj, rfl⟩ := List.mem_iff_getElem.mp hu
  have hr := MinHeap.root_min h hp j hj
  unfold MinHeap.keyAt at hr
  rwa [getD_eq_getElem _ _ hj] at hr

theorem MinHeap.extractMin_snd (h : List User) (h2 : 2 ≤ h.length) :
    (MinHeap.extractMin h).2 =
      MinHeap.heapifyDown ((h.dropLast).set 0 (h.getD (h.length - 1) default)) 0 := by
  simp only [MinHeap.extractMin]
  rw [if_neg (by omega), if_pos (by simp only [List.length_dropLast]; omega)]

theorem MinHeap.extractMin_spec (h : List User) (hne : h ≠ []) (hp : MinHeap.HeapProp h) :
    (MinHeap.extractMin h).1 = some (h.getD 0 default) ∧
    ((h.getD 0 default) :: (MinHeap.extractMin h).2).Perm h ∧
    MinHeap.HeapProp (MinHeap.extractMin h).2 := by
  obtain ⟨h1, h2⟩ := MinHeap.extractMin_root_perm h hne
  refine ⟨h1, h2, ?_⟩
  match h with
  | [x] =>
    have e2 : (MinHeap.extractMin [x]).2 = [] := by simp [MinHeap.extractMin]
    rw [e2]
    exact MinHeap.heapProp_nil
  | x :: y :: t2 =>
    rw [MinHeap.extractMin_snd (x :: y :: t2) (by simp)]
    exact MinHeap.heapifyDown_heapProp _ 0
      (MinHeap.downOK_extract (x :: y :: t2) hp (by simp))

/-! ### Top-K selection theory -/

theorem scoresOf_perm {l1 l2 : List User} (hp : l1.Perm l2) : scoresOf l1 = scoresOf l2 :=
  Multiset.coe_eq_coe.mpr (hp.map User.postCount)

theorem scoresOf_card (l : List User) : Multiset.card (scoresOf l) = l.length := by
  simp [scoresOf]

theorem scoresOf_cons (u : User) (l : List User) :
    scoresOf (u :: l) = u.postCount ::ₘ scoresOf l := rfl

theorem isTopK_zero : IsTopK 5 0 0 :=
  ⟨le_refl _, by simp, by simp⟩

theorem isTopK_step_small {k : Nat} {sel ms : Multiset Nat} (hT : IsTopK k sel ms)
    (hcard : Multiset.card sel < k) (x : Nat) : IsTopK k (x ::ₘ sel) (x ::ₘ ms) := by
  obtain ⟨hle, hcardEq, hdom⟩ := hT
  have hms : sel = ms := Multiset.eq_of_le_of_card_le hle (by omega)
  refine ⟨Multiset.cons_le_cons x hle, ?_, ?_⟩
  · simp only [Multiset.card_cons]
    omega
  · intro a ha b hb
    rw [← hms, tsub_self] at hb
    simp at hb

theorem isTopK_step_full {k : Nat} {sel ms : Multiset Nat} (hT : IsTopK k sel ms)
    (hcard : Multiset.card sel = k) (x μ : Nat) (hμmem : μ ∈ x ::ₘ sel)
    (hμmin : ∀ y ∈ x ::ₘ sel, μ ≤ y) :
    IsTopK k ((x ::ₘ sel).erase μ) (x ::ₘ ms) := by
  obtain ⟨hle, hcardEq, hdom⟩ := hT
  have hca : k ≤ Multiset.card ms := by omega
  refine ⟨le_trans (Multiset.erase_le μ _) (Multiset.cons_le_cons x hle), ?_, ?_⟩
  · rw [Multiset.card_erase_of_mem hμmem]
    simp only [Multiset.card_cons, Nat.pred_eq_sub_one]
    omega
  · intro a ha b hb
    have hsubms : (x ::ₘ ms) - ((x ::ₘ sel).erase μ) = (ms - sel) + {μ} := by
      rw [← Multiset.sub_singleton,
        tsub_tsub_assoc (Multiset.cons_le_cons x hle) (Multiset.singleton_le.mpr hμmem),
        Multiset.sub_cons, Multiset.erase_cons_head]
    rw [hsubms] at hb
    rcases Multiset.mem_add.mp hb with hb1 | hb1
    · by_cases hμsel : μ ∈ sel
      · exact le_trans (hdom μ hμsel b hb1) (hμmin a (Multiset.mem_of_mem_erase ha))
      · have hμx : μ = x := by
          rcases Multiset.mem_cons.mp hμmem with h | h
          · exact h
          · exact absurd h hμsel
        subst hμx
        rw [Multiset.erase_cons_head] at ha
        exact hdom a ha b hb1
    · rw [Multiset.mem_singleton.mp hb1]
      exact hμmin a (Multiset.mem_of_mem_erase ha)

theorem multiset_exists_max : ∀ (ms : Multiset Nat), ms ≠ 0 → ∃ M ∈ ms, ∀ b ∈ ms, b ≤ M := by
  intro ms
  refine Multiset.induction_on ms (fun h => absurd rfl h) ?_
  intro a s ih _
  rcases eq_or_ne s 0 with rfl | hs
  · exact ⟨a, by simp, by simp⟩
  · obtain ⟨M, hM, hMax⟩ := ih hs
    by_cases ham : a ≤ M
    · refine ⟨M, Multiset.mem_cons_of_mem hM, ?_⟩
      intro b hb
      rcases Multiset.mem_cons.mp hb with rfl | hb
      · exact ham
      · exact hMax b hb
    · refine ⟨a, Multiset.mem_cons_self a s, ?_⟩
      intro b hb
      rcases Multiset.mem_cons.mp hb with rfl | hb
      · exact le_refl b
      · exact le_trans (hMax b hb) (by omega)

theorem isTopK_max_mem {k : Nat} {ms m : Multiset Nat} (hT : IsTopK k m ms)
    (hm : 0 < Multiset.card m) {M : Nat} (hM : M ∈ ms) (hMax : ∀ b ∈ ms, b ≤ M) :
    M ∈ m := by
  by_contra hnot
  have hMsub : M ∈ ms - m := by
    rw [← Multiset.count_pos, Multiset.count_sub, Multiset.count_eq_zero.mpr hnot,
      Nat.sub_zero]
    exact Multiset.count_pos.mpr hM
  obtain ⟨a, ha⟩ := Multiset.card_pos_iff_exists_mem.mp hm
  have h1 : M ≤ a := hT.2.2 a ha M hMsub
  have h2 : a ≤ M := hMax a (Multiset.mem_of_le hT.1 ha)
  have heq : a = M := le_antisymm h2 h1
  exact hnot (heq ▸ ha)

theorem isTopK_erase_max {k : Nat} {ms m : Multiset Nat} (hT : IsTopK (k + 1) m ms)
    {M : Nat} (hM : M ∈ ms) (hMax : ∀ b ∈ ms, b ≤ M) (hMm : M ∈ m) :
    IsTopK k (m.erase M) (ms.erase M) := by
  obtain ⟨hle, hcard, hdom⟩ := hT
  have hcms : 0 < Multiset.card ms := Multiset.card_pos_iff_exists_mem.mpr ⟨M, hM⟩
  refine ⟨Multiset.erase_le_erase M hle, ?_, ?_⟩
  · rw [Multiset.card_erase_of_mem hMm, Multiset.card_erase_of_mem hM]
    simp only [Nat.pred_eq_sub_one]
    omega
  · intro a ha b hb
    have hsub_eq : ms.erase M - m.erase M = ms - m := by
      rw [← Multiset.sub_singleton, ← Multiset.sub_singleton,
        tsub_tsub_tsub_cancel_right (Multiset.singleton_le.mpr hMm)]
    rw [hsub_eq] at hb
    exact hdom a (Multiset.mem_of_mem_erase ha) b hb

theorem isTopK_unique : ∀ (k : Nat) (ms m1 m2 : Multiset Nat),
    IsTopK k m1 ms → IsTopK k m2 ms → m1 = m2 := by
  intro k
  induction k with
  | zero =>
    intro ms m1 m2 h1 h2
    have e1 : Multiset.card m1 = 0 := by have := h1.2.1; omega
    have e2 : Multiset.card m2 = 0 := by have := h2.2.1; omega
    rw [Multiset.card_eq_zero] at e1 e2
    rw [e1, e2]
  | succ k ih =>
    intro ms m1 m2 h1 h2
    rcases eq_or_ne ms 0 with rfl | hms
    · have e1 : Multiset.card m1 = 0 := by
        have hh := h1.2.1
        rw [Multiset.card_zero] at hh
        omega
      have e2 : Multiset.card m2 = 0 := by
        have hh := h2.2.1
        rw [Multiset.card_zero] at hh
        omega
      rw [Multiset.card_eq_zero] at e1 e2
      rw [e1, e2]
    · obtain ⟨M, hM, hMax⟩ := multiset_exists_max ms hms
      have hcms : 0 < Multiset.card ms := Multiset.card_pos.mpr hms
      have hc1 : 0 < Multiset.card m1 := by have := h1.2.1; omega
      have hc2 : 0 < Multiset.card m2 := by have := h2.2.1; omega
      have hm1 := isTopK_max_mem h1 hc1 hM hMax
      have hm2 := isTopK_max_mem h2 hc2 hM hMax
      have heq := ih (ms.erase M) (m1.erase M) (m2.erase M)
        (isTopK_erase_max h1 hM hMax hm1) (isTopK_erase_max h2 hM hMax hm2)
      calc m1 = M ::ₘ m1.erase M := (Multiset.cons_erase hm1).symm
        _ = M ::ₘ m2.erase M := by rw [heq]
        _ = m2 := Multiset.cons_erase hm2

theorem sorted_take_isTopK (l : List Nat) (hs : l.Sorted (· ≥ ·)) (k : Nat) :
    IsTopK k (↑(l.take k) : Multiset Nat) ↑l := by
  have hsplit : (↑l : Multiset Nat) = ↑(l.take k) + ↑(l.drop k) := by
    rw [show (↑(l.take k) + ↑(l.drop k) : Multiset Nat) = ↑(l.take k ++ l.drop k) from rfl,
      List.take_append_drop]
  refine ⟨?_, ?_, ?_⟩
  · rw [hsplit]
    exact Multiset.le_add_right _ _
  · simp only [Multiset.coe_card, List.length_take]
  · intro a ha b hb
    rw [hsplit, add_tsub_cancel_left] at hb
    have hpw : List.Pairwise (· ≥ ·) (l.take k ++ l.drop k) := by
      rw [List.take_append_drop]
      exact hs
    exact (List.pairwise_append.mp hpw).2.2 a (by simpa using ha) b (by simpa using hb)

theorem scores_cons_add (u : User) (S : Multiset Nat) (rest : List User) :
    (u.postCount ::ₘ S) + scoresOf rest = S + scoresOf (u :: rest) := by
  rw [scoresOf_cons, Multiset.cons_add, Multiset.add_cons]

theorem topSelect_fold_inv :
    ∀ (users : List User) (h : List User) (S : Multiset Nat),
      MinHeap.HeapProp h → h.length ≤ 5 → IsTopK 5 (scoresOf h) S →
      MinHeap.HeapProp (users.foldl topStep h) ∧
      (users.foldl topStep h).length ≤ 5 ∧
      IsTopK 5 (scoresOf (users.foldl topStep h)) (S + scoresOf users) := by
  intro users
  induction users with
  | nil =>
    intro h S hp hlen hT
    refine ⟨hp, hlen, ?_⟩
    simpa [scoresOf] using hT
  | cons u rest ih =>
    intro h S hp hlen hT
    simp only [List.foldl_cons]
    have hstepEq : topStep h u =
        if 5 < (MinHeap.insert h u).length then (MinHeap.extractMin (MinHeap.insert h u)).2
        else MinHeap.insert h u := rfl
    have h1p : MinHeap.HeapProp (MinHeap.insert h u) := MinHeap.insert_heapProp h u hp
    have h1len : (MinHeap.insert h u).length = h.length + 1 := MinHeap.insert_length h u
    have h1scores : scoresOf (MinHeap.insert h u) = u.postCount ::ₘ scoresOf h := by
      rw [scoresOf_perm (MinHeap.insert_perm h u), scoresOf_cons]
    by_cases hev : 5 < (MinHeap.insert h u).length
    · have hstep2 : topStep h u = (MinHeap.extractMin (MinHeap.insert h u)).2 := by
        rw [hstepEq, if_pos hev]
      have h1ne : MinHeap.insert h u ≠ [] := by
        intro e
        rw [e] at h1len
        simp at h1len
      obtain ⟨e1, eperm, ep⟩ := MinHeap.extractMin_spec (MinHeap.insert h u) h1ne h1p
      have elen : (MinHeap.extractMin (MinHeap.insert h u)).2.length + 1
          = (MinHeap.insert h u).length := by
        have := eperm.length_eq
        simpa using this
      have escores : ((MinHeap.insert h u).getD 0 default).postCount
            ::ₘ scoresOf (MinHeap.extractMin (MinHeap.insert h u)).2
          = scoresOf (MinHeap.insert h u) := by
        rw [← scoresOf_perm eperm, scoresOf_cons]
      have hT2 : IsTopK 5 (scoresOf (MinHeap.extractMin (MinHeap.insert h u)).2)
          (u.postCount ::ₘ S) := by
        have hcard5 : Multiset.card (scoresOf h) = 5 := by
          rw [scoresOf_card]
          omega
        have hμmem : ((MinHeap.insert h u).getD 0 default).postCount
            ∈ u.postCount ::ₘ scoresOf h := by
          rw [← h1scores]
          unfold scoresOf
          exact Multiset.mem_coe.mpr
            (List.mem_map_of_mem _ (getD_mem (MinHeap.insert h u) default (by omega)))
        have hμmin : ∀ y ∈ u.postCount ::ₘ scoresOf h,
            ((MinHeap.insert h u).getD 0 default).postCount ≤ y := by
          rw [← h1scores]
          intro y hy
          unfold scoresOf at hy
          obtain ⟨v, hv, rfl⟩ := List.mem_map.mp (Multiset.mem_coe.mp hy)
          exact MinHeap.root_min_mem (MinHeap.insert h u) h1p v hv
        have hfull := isTopK_step_full hT hcard5 u.postCount
          ((MinHeap.insert h u).getD 0 default).postCount hμmem hμmin
        have hveq : scoresOf (MinHeap.extractMin (MinHeap.insert h u)).2
            = (u.postCount ::ₘ scoresOf h).erase
                ((MinHeap.insert h u).getD 0 default).postCount := by
          rw [← h1scores, ← escores, Multiset.erase_cons_head]
        rw [hveq]
        exact hfull
      have hrec := ih (MinHeap.extractMin (MinHeap.insert h u)).2 (u.postCount ::ₘ S)
        ep (by omega) hT2
      rw [hstep2]
      refine ⟨hrec.1, hrec.2.1, ?_⟩
      rw [← scores_cons_add]
      exact hrec.2.2
    · have hstep2 : topStep h u = MinHeap.insert h u := by
        rw [hstepEq, if_neg hev]
      have hT2 : IsTopK 5 (scoresOf (MinHeap.insert h u)) (u.postCount ::ₘ S) := by
        rw [h1scores]
        exact isTopK_step_small hT (by rw [scoresOf_card]; omega) u.postCount
      have hrec := ih (MinHeap.insert h u) (u.postCount ::ₘ S) h1p (by omega) hT2
      rw [hstep2]
      refine ⟨hrec.1, hrec.2.1, ?_⟩
      rw [← scores_cons_add]
      exact hrec.2.2

theorem topSelect_spec (users : List User) :
    MinHeap.HeapProp (topSelect users) ∧ (topSelect users).length ≤ 5 ∧
    IsTopK 5 (scoresOf (topSelect users)) (scoresOf users) := by
  have hres := topSelect_fold_inv users [] 0 MinHeap.heapProp_nil (by simp) isTopK_zero
  unfold topSelect
  refine ⟨hres.1, hres.2.1, ?_⟩
  have := hres.2.2
  rwa [zero_add] at this

theorem topSelect_fold_small :
    ∀ (users : List User) (h : List User), h.length + users.length ≤ 5 →
      (users.foldl topStep h).Perm (h ++ users) := by
  intro users
  induction users with
  | nil => intro h _; simp
  | cons u rest ih =>
    intro h hlen
    simp only [List.foldl_cons]
    have hnoev : ¬ 5 < (MinHeap.insert h u).length := by
      rw [MinHeap.insert_length]
      simp at hlen
      omega
    have hstep2 : topStep h u = MinHeap.insert h u := by
      have : topStep h u =
          if 5 < (MinHeap.insert h u).length then (MinHeap.extractMin (MinHeap.insert h u)).2
          else MinHeap.insert h u := rfl
      rw [this, if_neg hnoev]
    rw [hstep2]
    have hrec := ih (MinHeap.insert h u) (by rw [MinHeap.insert_length]; simp at hlen ⊢; omega)
    refine hrec.trans ?_
    refine ((MinHeap.insert_perm h u).append_right rest).trans ?_
    exact List.perm_middle.symm

theorem drainAux_spec :
    ∀ (fuel : Nat) (h : List User), h.length ≤ fuel → MinHeap.HeapProp h →
      (MinHeap.drainAux fuel h).Perm h ∧ SortedByCountDesc (MinHeap.drainAux fuel h) := by
  intro fuel
  induction fuel with
  | zero =>
    intro h hf hp
    have he : h = [] := List.length_eq_zero.mp (by omega)
    subst he
    exact ⟨List.Perm.refl _, List.sorted_nil⟩
  | succ n ih =>
    intro h hf hp
    rcases eq_or_ne h [] with rfl | hne
    · exact ⟨by simp [MinHeap.drainAux], by simp [MinHeap.drainAux]; exact List.sorted_nil⟩
    · have hlen0 : h.length ≠ 0 := by simpa [List.length_eq_zero] using hne
      obtain ⟨e1, eperm, ep⟩ := MinHeap.extractMin_spec h hne hp
      have hstep : MinHeap.drainAux (n + 1) h
          = MinHeap.drainAux n (MinHeap.extractMin h).2
              ++ [(MinHeap.extractMin h).1.getD default] := by
        simp [MinHeap.drainAux, hlen0]
      have hm : (MinHeap.extractMin h).1.getD default = h.getD 0 default := by
        rw [e1]
        rfl
      have elen : (MinHeap.extractMin h).2.length + 1 = h.length := by
        have := eperm.length_eq
        simpa using this
      obtain ⟨ihperm, ihsorted⟩ := ih (MinHeap.extractMin h).2 (by omega) ep
      constructor
      · rw [hstep, hm]
        exact (List.perm_append_singleton _ _).trans ((ihperm.cons _).trans eperm)
      · rw [hstep, hm]
        refine List.pairwise_append.mpr ⟨ihsorted, List.pairwise_singleton _ _, ?_⟩
        intro a ha b hb
        have hb1 : b = h.getD 0 default := by simpa using hb
        subst hb1
        have ha1 : a ∈ (MinHeap.extractMin h).2 := (ihperm.mem_iff).mp ha
        have ha2 : a ∈ h := (eperm.mem_iff).mp (List.mem_cons_of_mem _ ha1)
        exact MinHeap.root_min_mem h hp a ha2

theorem drain_spec (h : List User) (hp : MinHeap.HeapProp h) :
    (MinHeap.drain h).Perm h ∧ SortedByCountDesc (MinHeap.drain h) :=
  drainAux_spec h.length h (le_refl _) hp

/-! ### Claim C1 and Claim C6 -/

/-- C1: the bounded top-K selection performed by getTopUsers (inserting each
user into the MinHeap keyed by postCount, extracting the minimum whenever the
heap size exceeds 5, then draining the heap) produces a list whose multiset
of postCount scores equals the first five entries of a brute-force descending
sort of all scores; when at most 5 users are given it retains exactly the
given users (as a multiset); and getTopUsersList is exactly this pipeline
applied to the fetched userWithPosts list. -/
theorem C1_getTopUsers_bounded_topK (users : List User) :
    scoresOf (MinHeap.drain (topSelect users)) = (↑(bruteTop5 users) : Multiset Nat) ∧
    (users.length ≤ 5 →
      ((MinHeap.drain (topSelect users) : List User) : Multiset User) = (↑users : Multiset User)) ∧
    (∀ (up : Upstream) (us : List (String × String)),
      getTopUsersList up us = MinHeap.drain (topSelect (userWithPosts up us))) := by
  obtain ⟨hp, hlen, hT⟩ := topSelect_spec users
  obtain ⟨dperm, dsort⟩ := drain_spec (topSelect users) hp
  refine ⟨?_, ?_, fun up us => rfl⟩
  · have hSel : IsTopK 5 (scoresOf (MinHeap.drain (topSelect users))) (scoresOf users) := by
      rw [scoresOf_perm dperm]
      exact hT
    have hBrute : IsTopK 5 (↑(bruteTop5 users) : Multiset Nat) (scoresOf users) := by
      unfold bruteTop5
      have hsorted := List.sorted_insertionSort (· ≥ ·) (users.map User.postCount)
      have h1 := sorted_take_isTopK _ hsorted 5
      have h2 : (↑(List.insertionSort (· ≥ ·) (users.map User.postCount)) : Multiset Nat)
          = scoresOf users :=
        Multiset.coe_eq_coe.mpr (List.perm_insertionSort _ _)
      rwa [h2] at h1
    exact isTopK_unique 5 (scoresOf users) _ _ hSel hBrute
  · intro hle
    have hsmall := topSelect_fold_small users [] (by simpa using hle)
    have hperm : (topSelect users).Perm users := by
      unfold topSelect
      simpa using hsmall
    exact Multiset.coe_eq_coe.mpr (dperm.trans hperm)

/-- Witness for C1 at a concrete input with two users. -/
theorem C1_witness :
    scoresOf (MinHeap.drain (topSelect
        [{ id := "a", name := "A", postCount := 3 }, { id := "b", name := "B", postCount := 1 }]))
      = (↑(bruteTop5
        [{ id := "a", name := "A", postCount := 3 }, { id := "b", name := "B", postCount := 1 }]) : Multiset Nat) ∧
    ((MinHeap.drain (topSelect
        [{ id := "a", name := "A", postCount := 3 }, { id := "b", name := "B", postCount := 1 }]) : List User) : Multiset User)
      = (↑[({ id := "a", name := "A", postCount := 3 } : User), { id := "b", name := "B", postCount := 1 }] : Multiset User) :=
  ⟨(C1_getTopUsers_bounded_topK _).1, (C1_getTopUsers_bounded_topK _).2.1 (by simp)⟩

/-- C6: for every upstream state and user listing, the list computed by
getTopUsers (the value cached and served by GET /users) has length at most 5
and is sorted in descending order of postCount. -/
theorem C6_getTopUsers_len_sorted (up : Upstream) (us : List (String × String)) :
    (getTopUsersList up us).length ≤ 5 ∧ SortedByCountDesc (getTopUsersList up us) := by
  unfold getTopUsersList
  obtain ⟨hp, hlen, _⟩ := topSelect_spec (userWithPosts up us)
  obtain ⟨dperm, dsort⟩ := drain_spec _ hp
  exact ⟨by rw [dperm.length_eq]; exact hlen, dsort⟩

/-! ### Claim C10: totality of heap extraction -/

/-- C10: extractMin, extractMax and peek return the null sentinel on an empty
heap and never fail; on a nonempty heap extractMin / extractMax return the
root, which is an element of the heap, and the remaining heap holds exactly
the other elements; peek returns the root without removal. -/
theorem C10_extract_total :
    MinHeap.extractMin ([] : List User) = (none, []) ∧
    (∀ {α : Type} [Inhabited α] (key : α → Nat),
      MaxHeap.extractMax key ([] : List α) = (none, [])) ∧
    (∀ {α : Type} [Inhabited α], MaxHeap.peek ([] : List α) = none) ∧
    (∀ (h : List User), h ≠ [] →
      (MinHeap.extractMin h).1 = some (h.getD 0 default) ∧
      ((h.getD 0 default) :: (MinHeap.extractMin h).2).Perm h) ∧
    (∀ {α : Type} [Inhabited α] (key : α → Nat) (h : List α), h ≠ [] →
      (MaxHeap.extractMax key h).1 = some (h.getD 0 default) ∧
      ((h.getD 0 default) :: (MaxHeap.extractMax key h).2).Perm h ∧
      MaxHeap.peek h = some (h.getD 0 default)) := by
  refine ⟨rfl, ?_, ?_, MinHeap.extractMin_root_perm, ?_⟩
  · intro α _ key
    rfl
  · intro α _
    rfl
  · intro α _ key h hne
    obtain ⟨h1, h2⟩ := MaxHeap.extractMax_spec key h hne
    refine ⟨h1, h2, ?_⟩
    unfold MaxHeap.peek
    rw [if_pos (List.length_pos.mpr hne)]

/-- Witness for C10 on concrete one-element heaps. -/
theorem C10_witness :
    ((MinHeap.extractMin [({ id := "a", name := "A", postCount := 2 } : User)]).1
        = some ([({ id := "a", name := "A", postCount := 2 } : User)].getD 0 default) ∧
      (([({ id := "a", name := "A", postCount := 2 } : User)].getD 0 default)
          :: (MinHeap.extractMin [({ id := "a", name := "A", postCount := 2 } : User)]).2).Perm
        [({ id := "a", name := "A", postCount := 2 } : User)]) ∧
    ((MaxHeap.extractMax CommentedPost.commentCount
          [({ id := 1, content := "p", username := "u", commentCount := 2 } : CommentedPost)]).1
        = some ([({ id := 1, content := "p", username := "u", commentCount := 2 } : CommentedPost)].getD 0 default) ∧
      (([({ id := 1, content := "p", username := "u", commentCount := 2 } : CommentedPost)].getD 0 default)
          :: (MaxHeap.extractMax CommentedPost.commentCount
              [({ id := 1, content := "p", username := "u", commentCount := 2 } : CommentedPost)]).2).Perm
        [({ id := 1, content := "p", username := "u", commentCount := 2 } : CommentedPost)] ∧
      MaxHeap.peek [({ id := 1, content := "p", username := "u", commentCount := 2 } : CommentedPost)]
        = some ([({ id := 1, content := "p", username := "u", commentCount := 2 } : CommentedPost)].getD 0 default)) :=
  ⟨C10_extract_total.2.2.2.1 _ (by simp),
   C10_extract_total.2.2.2.2 CommentedPost.commentCount _ (by simp)⟩

/-! ### Claim C9: empty upstream listing -/

/-- C9: when the upstream listing contains zero users, getTopUsers,
getLatestPosts and getPopularPosts all compute the empty list and no error
value arises: fetchAllPosts yields the empty list, the latest extraction
extracts min(5, 0) = 0 posts, and the popular extraction returns the empty
list from the empty-heap guard. -/
theorem C9_empty_users (up : Upstream) (hu : up.users = some []) :
    fetchAllPosts up = [] ∧ getTopUsersList up [] = [] ∧
    getLatestPosts up = [] ∧ getPopularPosts up = [] := by
  have hall : fetchAllPosts up = [] := by
    unfold fetchAllPosts
    rw [hu]
    rfl
  refine ⟨hall, rfl, ?_, ?_⟩
  · unfold getLatestPosts
    rw [hall]
    rfl
  · unfold getPopularPosts
    rw [hall]
    rfl

/-- Witness for C9 at a concrete upstream with an empty user listing. -/
theorem C9_witness :
    fetchAllPosts { users := some [], posts := fun _ => none, comments := fun _ => none } = [] ∧
    getTopUsersList { users := some [], posts := fun _ => none, comments := fun _ => none } [] = [] ∧
    getLatestPosts { users := some [], posts := fun _ => none, comments := fun _ => none } = [] ∧
    getPopularPosts { users := some [], posts := fun _ => none, comments := fun _ => none } = [] :=
  C9_empty_users _ rfl

/-! ### Claim C7: deterministic repeated refresh -/

/-- C7: invoking updatePostsCache twice in succession with unchanged
upstream data writes identical latest-posts and popular-posts cache values
both times. -/
theorem C7_updatePostsCache_idempotent (up : Upstream) (c : ApiCaches) :
    (updatePostsCache up (updatePostsCache up c)).latestPosts
        = (updatePostsCache up c).latestPosts ∧
    (updatePostsCache up (updatePostsCache up c)).popularPosts
        = (updatePostsCache up c).popularPosts := by
  simp only [updatePostsCache]
  split_ifs <;> simp

/-! ### Claim C3 (corrected): failing users fetch overwrites the caches -/

/-- C3 counterexample: with nonempty prior cache entries and a failing
users-listing fetch, the refresh jobs do not leave the cache entries at
their prior values: updateUsersCache overwrites topUsers and
updatePostsCache overwrites both post entries with the empty list. -/
theorem C3_counterexample :
    (updateUsersCache { users := none, posts := fun _ => none, comments := fun _ => none }
        { topUsers := some [{ id := "a", name := "A", postCount := 3 }],
          latestPosts := some [{ id := 1, content := "p", username := "A" }],
          popularPosts := some [{ id := 1, content := "p", username := "A", commentCount := 2 }] }).topUsers
      ≠ some [{ id := "a", name := "A", postCount := 3 }] ∧
    (updatePostsCache { users := none, posts := fun _ => none, comments := fun _ => none }
        { topUsers := some [{ id := "a", name := "A", postCount := 3 }],
          latestPosts := some [{ id := 1, content := "p", username := "A" }],
          popularPosts := some [{ id := 1, content := "p", username := "A", commentCount := 2 }] }).latestPosts
      ≠ some [{ id := 1, content := "p", username := "A" }] ∧
    (updatePostsCache { users := none, posts := fun _ => none, comments := fun _ => none }
        { topUsers := some [{ id := "a", name := "A", postCount := 3 }],
          latestPosts := some [{ id := 1, content := "p", username := "A" }],
          popularPosts := some [{ id := 1, content := "p", username := "A", commentCount := 2 }] }).popularPosts
      ≠ some [{ id := 1, content := "p", username := "A", commentCount := 2 }] := by
  refine ⟨?_, ?_, ?_⟩ <;> simp [updateUsersCache, updatePostsCache, fetchAllPosts]

/-- C3 amended: when the top-level users-listing fetch fails during a
scheduled refresh, the aggregation cycle produces an empty result and the
corresponding cache entries are overwritten with the empty list (not left at
their prior values). -/
theorem C3_amended (up : Upstream) (c : ApiCaches) (hu : up.users = none) :
    (updateUsersCache up c).topUsers = some [] ∧
    (updatePostsCache up c).latestPosts = some [] ∧
    (updatePostsCache up c).popularPosts = some [] := by
  have hall : fetchAllPosts up = [] := by
    unfold fetchAllPosts
    rw [hu]
  refine ⟨?_, ?_, ?_⟩
  · unfold updateUsersCache
    rw [hu]
  · unfold updatePostsCache
    rw [hall]
    simp
  · unfold updatePostsCache
    rw [hall]
    simp

/-- Witness for C3 amended at a concrete failing upstream and prior cache. -/
theorem C3_amended_witness :
    (updateUsersCache { users := none, posts := fun _ => none, comments := fun _ => none }
        { topUsers := some [{ id := "a", name := "A", postCount := 3 }],
          latestPosts := none, popularPosts := none }).topUsers = some [] ∧
    (updatePostsCache { users := none, posts := fun _ => none, comments := fun _ => none }
        { topUsers := some [{ id := "a", name := "A", postCount := 3 }],
          latestPosts := none, popularPosts := none }).latestPosts = some [] ∧
    (updatePostsCache { users := none, posts := fun _ => none, comments := fun _ => none }
        { topUsers := some [{ id := "a", name := "A", postCount := 3 }],
          latestPosts := none, popularPosts := none }).popularPosts = some [] :=
  C3_amended _ _ rfl

/-! ### Claim C8 (corrected): invalid type parameter -/

/-- C8 counterexample: the empty string is a present type value that is
neither latest nor popular, yet the handler falls back to the latest branch
(the JS default applies to every falsy string) and answers 200 after a cache
read, not 400. -/
theorem C8_counterexample :
    ("" ≠ "latest" ∧ "" ≠ "popular") ∧
    (postsHandler (some "")
        { users := some [], posts := fun _ => none, comments := fun _ => none }
        { latest_posts := some [], popular_posts := none }).1.status = 200 ∧
    (postsHandler (some "")
        { users := some [], posts := fun _ => none, comments := fun _ => none }
        { latest_posts := some [], popular_posts := none }).2.2 ≠ [] := by
  refine ⟨⟨by simp, by simp⟩, ?_, ?_⟩ <;> simp [postsHandler, PostsResult.status]

/-- C8 amended: a GET /posts request whose type parameter is present,
non-empty and neither latest nor popular receives HTTP 400 with an error
body, performs no cache operation and leaves the server cache unchanged;
an empty type value instead falls back to the latest branch. -/
theorem C8_amended (s : String) (up : Upstream) (st : SrvCaches)
    (hne : s ≠ "") (hl : s ≠ "latest") (hp : s ≠ "popular") :
    postsHandler (some s) up st = (.badRequest, st, []) := by
  simp only [postsHandler]
  rw [if_neg hne, if_neg hl, if_neg hp]

/-- Witness for C8 amended at a concrete bogus type value. -/
theorem C8_amended_witness :
    postsHandler (some "bogus")
        { users := some [], posts := fun _ => none, comments := fun _ => none }
        { latest_posts := some [], popular_posts := none }
      = (.badRequest, { latest_posts := some [], popular_posts := none }, []) :=
  C8_amended "bogus" _ _ (by simp) (by simp) (by simp)

/-! ### Claim C4: fixed-count latest extraction -/

/-- C4: for an input of 8 posts with identifiers 1 through 8, the fixed-count
extraction of getLatestPosts returns exactly min(5, 8) = 5 posts, those with
identifiers 8,7,6,5,4 in that descending order; and getLatestPosts is this
extraction applied to the aggregated post list. -/
theorem C4_latest_fixed_count :
    (latestFromPosts
        [{ id := 1, content := "p", username := "u" }, { id := 2, content := "p", username := "u" },
         { id := 3, content := "p", username := "u" }, { id := 4, content := "p", username := "u" },
         { id := 5, content := "p", username := "u" }, { id := 6, content := "p", username := "u" },
         { id := 7, content := "p", username := "u" }, { id := 8, content := "p", username := "u" }]).map
        UserPost.id
      = [8, 7, 6, 5, 4] ∧
    (latestFromPosts
        [{ id := 1, content := "p", username := "u" }, { id := 2, content := "p", username := "u" },
         { id := 3, content := "p", username := "u" }, { id := 4, content := "p", username := "u" },
         { id := 5, content := "p", username := "u" }, { id := 6, content := "p", username := "u" },
         { id := 7, content := "p", username := "u" }, { id := 8, content := "p", username := "u" }]).length
      = min 5 8 ∧
    (∀ up : Upstream, getLatestPosts up = latestFromPosts (fetchAllPosts up)) :=
  ⟨by decide, by decide, fun up => rfl⟩

/-! ### Claim C2: tie-complete popular extraction -/

/-- C2: for posts with identifiers 1..5 and comment counts 3,5,5,2,5, the
tie-complete extraction of getPopularPosts returns exactly the posts with
identifiers 5, 3, 2 (all those tied at the maximal comment count 5), sorted
by descending identifier. -/
theorem C2_popular_tie_complete :
    getPopularPosts
        { users := some [("u1", "User One")],
          posts := fun _ => some
            [{ id := 1, content := "p" }, { id := 2, content := "p" }, { id := 3, content := "p" },
             { id := 4, content := "p" }, { id := 5, content := "p" }],
          comments := fun i => some (List.replicate (if i = 1 then 3 else if i = 4 then 2 else 5) "c") }
      = [{ id := 5, content := "p", username := "User One", commentCount := 5 },
         { id := 3, content := "p", username := "User One", commentCount := 5 },
         { id := 2, content := "p", username := "User One", commentCount := 5 }] ∧
    (getPopularPosts
        { users := some [("u1", "User One")],
          posts := fun _ => some
            [{ id := 1, content := "p" }, { id := 2, content := "p" }, { id := 3, content := "p" },
             { id := 4, content := "p" }, { id := 5, content := "p" }],
          comments := fun i => some (List.replicate (if i = 1 then 3 else if i = 4 then 2 else 5) "c") }).map
        CommentedPost.id
      = [5, 3, 2] :=
  ⟨by decide, by decide⟩

/-! ### Claim C5: per-user fetch failure isolation -/

/-- C5: if the posts fetch fails for user u3 while those for u1, u2 and u4
succeed, the aggregated post list built by fetchAllPosts contains exactly the
tagged posts of u1, u2 and u4 (none from u3), and the top-users view built by
getTopUsers still includes u3 with postCount 0. -/
theorem C5_partial_failure (n1 n2 n3 n4 : String) (p1 p2 p4 : List Post) (up : Upstream)
    (hus : up.users = some [("u1", n1), ("u2", n2), ("u3", n3), ("u4", n4)])
    (h1 : up.posts "u1" = some p1) (h2 : up.posts "u2" = some p2)
    (h3 : up.posts "u3" = none) (h4 : up.posts "u4" = some p4) :
    fetchAllPosts up
      = p1.map (fun p => { id := p.id, content := p.content, username := n1 })
        ++ p2.map (fun p => { id := p.id, content := p.content, username := n2 })
        ++ p4.map (fun p => { id := p.id, content := p.content, username := n4 }) ∧
    ({ id := "u3", name := n3, postCount := 0 } : User)
      ∈ getTopUsersList up [("u1", n1), ("u2", n2), ("u3", n3), ("u4", n4)] := by
  constructor
  · unfold fetchAllPosts
    rw [hus]
    simp [fetchUserPosts, h1, h2, h3, h4]
  · unfold getTopUsersList
    have hu3 : ({ id := "u3", name := n3, postCount := 0 } : User)
        ∈ userWithPosts up [("u1", n1), ("u2", n2), ("u3", n3), ("u4", n4)] := by
      unfold userWithPosts fetchUserPosts
      simp [h3]
    obtain ⟨hp, _, _⟩ :=
      topSelect_spec (userWithPosts up [("u1", n1), ("u2", n2), ("u3", n3), ("u4", n4)])
    obtain ⟨dperm, _⟩ := drain_spec _ hp
    have hsmall := topSelect_fold_small
      (userWithPosts up [("u1", n1), ("u2", n2), ("u3", n3), ("u4", n4)]) []
      (by simp [userWithPosts])
    have hperm : (topSelect (userWithPosts up
        [("u1", n1), ("u2", n2), ("u3", n3), ("u4", n4)])).Perm
        (userWithPosts up [("u1", n1), ("u2", n2), ("u3", n3), ("u4", n4)]) := by
      unfold topSelect
      simpa using hsmall
    exact ((dperm.trans hperm).mem_iff).mpr hu3

/-- Witness for C5 at a concrete upstream where only the u3 fetch fails. -/
theorem C5_witness :
    fetchAllPosts
        { users := some [("u1", "N1"), ("u2", "N2"), ("u3", "N3"), ("u4", "N4")],
          posts := fun uid =>
            if uid = "u1" then some [{ id := 1, content := "x" }]
            else if uid = "u2" then some []
            else if uid = "u4" then some [{ id := 2, content := "y" }]
            else none,
          comments := fun _ => none }
      = ([{ id := 1, content := "x" }] : List Post).map
          (fun p => { id := p.id, content := p.content, username := "N1" })
        ++ ([] : List Post).map (fun p => { id := p.id, content := p.content, username := "N2" })
        ++ ([{ id := 2, content := "y" }] : List Post).map
          (fun p => { id := p.id, content := p.content, username := "N4" }) ∧
    ({ id := "u3", name := "N3", postCount := 0 } : User)
      ∈ getTopUsersList
          { users := some [("u1", "N1"), ("u2", "N2"), ("u3", "N3"), ("u4", "N4")],
            posts := fun uid =>
              if uid = "u1" then some [{ id := 1, content := "x" }]
              else if uid = "u2" then some []
              else if uid = "u4" then some [{ id := 2, content := "y" }]
              else none,
            comments := fun _ => none }
          [("u1", "N1"), ("u2", "N2"), ("u3", "N3"), ("u4", "N4")] :=
  C5_partial_failure "N1" "N2" "N3" "N4" _ _ _ _ rfl (by simp) (by simp) (by simp) (by simp)

end Backend
